import Mathlib

/-!
# Verification of the `relation_theory` package

A shallow embedding of `relation_theory/fd.py` and `relation_theory/rs.py`:
functional dependencies, dependency sets with attribute-set closure,
implication, singleton-RHS decomposition and canonical covers, and relation
schemas with candidate-key search, normal-form judgment and the
lossless-decomposition check.

Attributes are Python strings (`str`), modelled as Lean `String`.  Python
`set`/`frozenset` values of attributes are modelled as `Finset String`.
Where the Python code iterates over a `set` (whose iteration order CPython
leaves unspecified) or calls `sorted`, the embedding iterates in sorted
order — for `sorted` this is exact (Python compares strings
lexicographically by code point), and for plain set iteration it is a
fixed representative of the unspecified order; every property proved
below is insensitive to this choice except where noted in a doc comment.
-/

namespace RelationTheory

/-- An attribute: a Python `str`. -/
abbrev Attr := String

/-- Python's `<=` on `str`: lexicographic comparison by code point, i.e.
the order of the underlying character lists.  (`String`'s built-in `≤` is
the same order, but its decision procedure is defined by well-founded
recursion and does not reduce in the kernel; the character-list order
does.) -/
def attrLe (a b : Attr) : Prop := a.data ≤ b.data

instance : DecidableRel attrLe := fun a b =>
  inferInstanceAs (Decidable (a.data ≤ b.data))

/-- Insertion step of the sort used to iterate attribute sets. -/
def insertAttr (a : Attr) : List Attr → List Attr
  | [] => [a]
  | b :: l => if attrLe a b then a :: b :: l else b :: insertAttr a l

theorem attrLe_total (a b : Attr) : attrLe a b ∨ attrLe b a := le_total a.data b.data

theorem attrLe_antisymm {a b : Attr} (h1 : attrLe a b) (h2 : attrLe b a) : a = b := by
  have : a.data = b.data := le_antisymm h1 h2
  cases a; cases b; exact congrArg String.mk this

theorem attrLe_trans {a b c : Attr} (h1 : attrLe a b) (h2 : attrLe b c) : attrLe a c :=
  le_trans h1 h2

instance : LeftCommutative insertAttr := ⟨fun a b l => by
  induction l with
  | nil =>
      show insertAttr a [b] = insertAttr b [a]
      by_cases hab : attrLe a b <;> by_cases hba : attrLe b a
      · rw [attrLe_antisymm hab hba]
      · simp [insertAttr, hab, hba]
      · simp [insertAttr, hab, hba]
      · exact absurd ((attrLe_total a b).resolve_left hab) hba
  | cons c l ih =>
      by_cases hbc : attrLe b c <;> by_cases hac : attrLe a c
      · by_cases hab : attrLe a b <;> by_cases hba : attrLe b a
        · rw [attrLe_antisymm hab hba]
        · simp [insertAttr, hab, hba, hbc, hac]
        · simp [insertAttr, hab, hba, hbc, hac]
        · exact absurd ((attrLe_total a b).resolve_left hab) hba
      · have hab : ¬ attrLe a b := fun h => hac (attrLe_trans h hbc)
        have hba : attrLe b a := (attrLe_total a b).resolve_left hab
        simp [insertAttr, hab, hba, hbc, hac]
      · have hba : ¬ attrLe b a := fun h => hbc (attrLe_trans h hac)
        have hab : attrLe a b := (attrLe_total b a).resolve_left hba
        simp [insertAttr, hab, hba, hbc, hac]
      · simp [insertAttr, hbc, hac, ih]⟩

/-- The iteration order of a Python attribute set: its elements in sorted
order (duplicate-free, since a `Finset` has no duplicates). -/
def sortedList (s : Finset Attr) : List Attr :=
  Multiset.foldr insertAttr [] s.val

/-- `fd.py`, class `FD`: an immutable pair of attribute sets.
`FD.__init__` stores `frozenset(lhs)` and `frozenset(rhs)`; applied to a
set of strings, `frozenset` returns the same elements, so the constructor
is the identity on both fields.  `FD.__eq__`/`__hash__` are structural
over the pair, which `DecidableEq` mirrors. -/
structure FD where
  lhs : Finset Attr
  rhs : Finset Attr
deriving DecidableEq

/-- `fd.py`, class `FDSet`: an ordered collection of FDs (the Python
attribute `self.fds`, a list). -/
structure FDSet where
  fds : List FD

/-- One iteration of the `for fd in self.fds` body inside `FDSet.closure`:
if `fd.lhs.issubset(closure_set) and not fd.rhs.issubset(closure_set)`,
then `closure_set.update(fd.rhs)`. -/
def closureStep (acc : Finset Attr) (fd : FD) : Finset Attr :=
  if fd.lhs ⊆ acc ∧ ¬ fd.rhs ⊆ acc then acc ∪ fd.rhs else acc

/-- One full pass of the `while changed` loop of `FDSet.closure`: the
`for` loop threads `closure_set` through `closureStep` for each FD in list
order.  The Python `changed` flag of a pass is true exactly when the pass
changed `closure_set`. -/
def closurePass (fds : List FD) (S : Finset Attr) : Finset Attr :=
  fds.foldl closureStep S

/-- The union of all right-hand sides of a list of FDs; `closure_set` can
only ever grow into this set, which bounds the number of passes the
`while changed` loop can make. -/
def allRhs (fds : List FD) : Finset Attr :=
  fds.foldr (fun fd acc => fd.rhs ∪ acc) ∅

/-- The `while changed` loop of `FDSet.closure`, with explicit fuel: run
passes until one makes no change.  `allRhs.card + 1` units of fuel always
suffice (`closureAux_fixpoint`), because each changing pass strictly grows
the set inside `S ∪ allRhs`. -/
def closureAux : Nat → List FD → Finset Attr → Finset Attr
  | 0, _, S => S
  | n + 1, fds, S =>
      let S' := closurePass fds S
      if S' = S then S else closureAux n fds S'

/-- `fd.py`, `FDSet.closure`: the attribute-set closure, as the fixed
point of the pass function starting from `attributes`. -/
def FDSet.closure (F : FDSet) (attributes : Finset Attr) : Finset Attr :=
  closureAux ((allRhs F.fds).card + 1) F.fds attributes

/-- `fd.py`, `FDSet.implies`: `fd.rhs.issubset(self.closure(fd.lhs))`. -/
def FDSet.implies (F : FDSet) (fd : FD) : Bool :=
  fd.rhs ⊆ F.closure fd.lhs

/-- `fd.py`, `FDSet.__eq__`: two FDSets are equal iff each implies every
FD of the other (the two `for` loops with early `return False`). -/
def FDSet.eq (F other : FDSet) : Bool :=
  F.fds.all (fun fd => other.implies fd) && other.fds.all (fun fd => F.implies fd)

/-- The propositional reading of mutual implication (`FDSet.__eq__`). -/
def Equiv (F G : FDSet) : Prop :=
  (∀ fd ∈ F.fds, G.implies fd = true) ∧ (∀ fd ∈ G.fds, F.implies fd = true)

/-- Python's `frozenset` applied to a *string*: the set of the string's
characters, each as a one-character string.  `FDSet.singleton_rhs` calls
`frozenset(attr)` on an individual attribute `attr : str`; for the
intended single-character attributes this is `{attr}`, but for a
multi-character token it splits the token into its characters. -/
def pyFrozenset (s : String) : Finset Attr :=
  (s.data.map (fun c => String.mk [c])).toFinset

/-- Models Python's `next(iter(s))` on a set of strings.  CPython leaves
set iteration order unspecified; the embedding picks the least element.
Every use below is on a nonempty set; the `""` default marks the
`StopIteration` case, which is unreachable there. -/
def pyNext (s : Finset Attr) : Attr :=
  (sortedList s).headD ""

/-- `fd.py`, `FDSet.singleton_rhs`: for each FD and each attribute of its
right side (iterated in set order, modelled as sorted order), emit
`FD(fd.lhs, frozenset(attr))`. -/
def FDSet.singleton_rhs (F : FDSet) : FDSet :=
  ⟨F.fds.flatMap (fun fd =>
    (sortedList fd.rhs).map (fun attr => FD.mk fd.lhs (pyFrozenset attr)))⟩

/-- `fd.py`, `FDSet.canonical_cover`, step 2 body for one FD: starting
from `minimal_lhs = set(fd.lhs)`, iterate over the original `fd.lhs` (set
order, modelled as sorted); drop `attr` whenever the single RHS attribute
is in the closure of `minimal_lhs - {attr}` computed against the full
singleton list.  Returns `FD(frozenset(minimal_lhs), frozenset(rhs_attr))`. -/
def minimizeFD (full : List FD) (fd : FD) : FD :=
  let rhs_attr := pyNext fd.rhs
  let minimal_lhs := (sortedList fd.lhs).foldl
    (fun ml attr =>
      if rhs_attr ∈ (FDSet.mk full).closure (ml.erase attr) then ml.erase attr else ml)
    fd.lhs
  FD.mk minimal_lhs (pyFrozenset rhs_attr)

/-- `fd.py`, `FDSet.canonical_cover`, manual dedup: keep the first
occurrence of each FD, in order. -/
def pyDedup (l : List FD) : List FD :=
  l.foldl (fun acc fd => if fd ∈ acc then acc else acc ++ [fd]) []

/-- `fd.py`, `FDSet.canonical_cover`, step 3 inner `while i < len` scan:
`kept` holds the survivors before index `i`; at each position, if the
FDSet of all other current elements implies the element, pop it
(`changed = True`), else keep it and advance. -/
def rrPass (kept : List FD) : List FD → List FD × Bool
  | [] => (kept, false)
  | fd :: rest =>
      if (FDSet.mk (kept ++ rest)).implies fd then
        ((rrPass kept rest).1, true)
      else rrPass (kept ++ [fd]) rest

/-- `fd.py`, `FDSet.canonical_cover`, step 3 `while changed` loop with
fuel: re-scan while a pass removed something.  Each changing pass shortens
the list, so `length + 1` units of fuel suffice. -/
def rrLoop : Nat → List FD → List FD
  | 0, l => l
  | n + 1, l =>
      match rrPass [] l with
      | (l', true) => rrLoop n l'
      | (_, false) => l

/-- `fd.py`, `FDSet.canonical_cover`: singleton decomposition, left-hand
side minimization against the full singleton list, manual dedup, then
iterated removal of redundant FDs. -/
def FDSet.canonical_cover (F : FDSet) : FDSet :=
  let singleton_fds := F.singleton_rhs.fds
  let minimized_fds := singleton_fds.map (minimizeFD singleton_fds)
  let unique_fds := pyDedup minimized_fds
  ⟨rrLoop (unique_fds.length + 1) unique_fds⟩

/-- `rs.py`, class `RelationSchema`: an attribute universe (stored as
`frozenset(attributes)`, identity on a set) and a dependency set. -/
structure RelationSchema where
  attributes : Finset Attr
  fd_set : FDSet

/-- The union of all left-hand sides, as accumulated by the
`all_left.update(fd.lhs)` loop of `candidate_keys`. -/
def allLhs (fds : List FD) : Finset Attr :=
  fds.foldr (fun fd acc => fd.lhs ∪ acc) ∅

/-- The `for r in range(len(both)+1): for subset in combinations(both, r)`
enumeration of `candidate_keys`: all sublists of the iteration order of
`both`, grouped by size. -/
def subsetEnum (both : Finset Attr) : List (List Attr) :=
  let bothList := sortedList both
  (List.range (bothList.length + 1)).flatMap (fun r => bothList.sublistsLen r)

/-- `rs.py`, `RelationSchema.candidate_keys`: partition the FD attributes
into left-only / both / isolated, enumerate the subsets of `both`, and
keep `left ∪ subset ∪ isolated` when it is a superkey none of whose
single-attribute removals is a superkey. -/
def RelationSchema.candidate_keys (R : RelationSchema) : List (Finset Attr) :=
  let U := R.attributes
  let fds := R.fd_set
  let all_left := allLhs fds.fds
  let all_right := allRhs fds.fds
  let left := all_left \ all_right
  let both := all_left ∩ all_right
  let isolated := U \ (all_left ∪ all_right)
  (subsetEnum both).filterMap (fun subset =>
    let candidate := left ∪ subset.toFinset ∪ isolated
    if fds.closure candidate = U ∧ ∀ a ∈ candidate, fds.closure (candidate.erase a) ≠ U
    then some candidate
    else none)

/-- Python `''.join(sorted(s))` on a set of strings. -/
def joinSorted (s : Finset Attr) : String :=
  String.join (sortedList s)

/-- `rs.py`, `RelationSchema._judge_2NF`: for each elementary FD, scan
the candidate keys and report the first key of which `fd.lhs` is a proper
subset while `fd.rhs` is not contained in the prime attributes (the
`break` after the first matching key). -/
def RelationSchema.judge_2NF (R : RelationSchema) (candidate_keys : List (Finset Attr)) :
    List String :=
  let prime_attrs := candidate_keys.foldl (fun acc key => acc ∪ key) ∅
  let atomic_fds := R.fd_set.singleton_rhs.fds
  atomic_fds.filterMap (fun fd =>
    (candidate_keys.find? (fun key => fd.lhs ⊂ key ∧ ¬ fd.rhs ⊆ prime_attrs)).map
      (fun key =>
        "Violation: " ++ joinSorted fd.lhs ++ " -> " ++ joinSorted fd.rhs ++
          " is a partial dependency on candidate key " ++ joinSorted key))

/-- `rs.py`, `RelationSchema._judge_3NF`: report each elementary FD whose
left side contains no candidate key and whose right side is not contained
in the prime attributes. -/
def RelationSchema.judge_3NF (R : RelationSchema) (candidate_keys : List (Finset Attr)) :
    List String :=
  let prime_attrs := candidate_keys.foldl (fun acc key => acc ∪ key) ∅
  let atomic_fds := R.fd_set.singleton_rhs.fds
  (atomic_fds.filter (fun fd =>
      candidate_keys.all (fun key => ¬ key ⊆ fd.lhs) ∧ ¬ fd.rhs ⊆ prime_attrs)).map
    (fun fd =>
      "Violation: " ++ joinSorted fd.lhs ++ " -> " ++ joinSorted fd.rhs ++
        " is a transitive dependency")

/-- `rs.py`, `RelationSchema._judge_BCNF`: report each elementary FD
whose left side contains no candidate key. -/
def RelationSchema.judge_BCNF (R : RelationSchema) (candidate_keys : List (Finset Attr)) :
    List String :=
  let atomic_fds := R.fd_set.singleton_rhs.fds
  (atomic_fds.filter (fun fd => candidate_keys.all (fun key => ¬ key ⊆ fd.lhs))).map
    (fun fd =>
      "Violation: " ++ joinSorted fd.lhs ++ " -> " ++ joinSorted fd.rhs ++
        " violates BCNF")

/-- `rs.py`, `RelationSchema.judge_NF`: the three-stage short-circuiting
judgment (Python's `if violations:` truth test is list-nonemptiness). -/
def RelationSchema.judge_NF (R : RelationSchema) : String × List String :=
  let candidate_keys := R.candidate_keys
  let violations_2NF := R.judge_2NF candidate_keys
  if violations_2NF ≠ [] then ("1NF", violations_2NF)
  else
    let violations_3NF := R.judge_3NF candidate_keys
    if violations_3NF ≠ [] then ("2NF", violations_3NF)
    else
      let violations_BCNF := R.judge_BCNF candidate_keys
      if violations_BCNF ≠ [] then ("3NF", violations_BCNF)
      else ("BCNF", [])

/-- `rs.py`, `RelationSchema.is_lossless_decomposition`: the `for` loop
with early `return True` is an existential scan for a fragment containing
some candidate key. -/
def RelationSchema.is_lossless_decomposition (R : RelationSchema)
    (sub_schemas : List (Finset Attr)) : Bool :=
  let candidate_keys := R.candidate_keys
  sub_schemas.any (fun sub_schema => candidate_keys.any (fun key => key ⊆ sub_schema))

/-!
## CPython default-argument semantics for `FDSet.__init__`

`fd.py` line 22 reads `def __init__(self, fds: list[FD] = []):` followed by
`self.fds = fds`.  In CPython the default value `[]` is evaluated once, when
the `def` statement executes, and every call that omits the argument binds
`self.fds` to that one list object.  The model below is a tiny heap of list
objects; an address is an index into `cells`.
-/

/-- A heap of Python list objects. -/
structure PyListHeap where
  cells : List (List FD)

/-- The address of the default-argument list object of `FDSet.__init__`. -/
def defaultFdsAddr : Nat := 0

/-- The heap right after `class FDSet` is defined: the default argument
`[]` has been evaluated, once, and lives at `defaultFdsAddr`. -/
def heapAfterClassDef : PyListHeap := ⟨[[]]⟩

/-- `FDSet()` with no argument: `self.fds = fds` binds the attribute to
the default list object.  No new list is allocated; the returned address
is the shared default. -/
def FDSet_init_noarg (h : PyListHeap) : PyListHeap × Nat :=
  (h, defaultFdsAddr)

/-- `lst.append(fd)` on the list object at address `addr`. -/
def heapAppend (h : PyListHeap) (addr : Nat) (fd : FD) : PyListHeap :=
  ⟨h.cells.set addr (h.cells.getD addr [] ++ [fd])⟩

/-- Read the list object at address `addr`. -/
def heapGet (h : PyListHeap) (addr : Nat) : List FD :=
  h.cells.getD addr []

/-! ## Concrete scenario inputs (from §8 of the specification and the tests) -/

/-- Scenario A dependency set: `{A->B, B->C}`. -/
def scA : FDSet := ⟨[⟨{"A"}, {"B"}⟩, ⟨{"B"}, {"C"}⟩]⟩

/-- Scenario B schema: attributes `{A,B,C,D}`, FDs `{A->B, BC->D, D->A}`. -/
def scB : RelationSchema :=
  ⟨{"A", "B", "C", "D"}, ⟨[⟨{"A"}, {"B"}⟩, ⟨{"B", "C"}, {"D"}⟩, ⟨{"D"}, {"A"}⟩]⟩⟩

/-- A dependency set with a multi-character attribute token `"AB"` on a
right-hand side; `FD` and `FDSet` accept it (nothing in the construction
path prevents multi-character tokens). -/
def exF : FDSet := ⟨[⟨{"X"}, {"AB"}⟩]⟩

/-! ## Lemmas: sorted iteration of attribute sets -/

theorem mem_insertAttr {a b : Attr} {l : List Attr} :
    a ∈ insertAttr b l ↔ a = b ∨ a ∈ l := by
  induction l with
  | nil => simp [insertAttr]
  | cons c l ih =>
      by_cases h : attrLe b c
      · simp [insertAttr, h]
      · simp only [insertAttr, if_neg h, List.mem_cons, ih]
        tauto

theorem nodup_insertAttr {a : Attr} {l : List Attr} (ha : a ∉ l) (hl : l.Nodup) :
    (insertAttr a l).Nodup := by
  induction l with
  | nil => simp [insertAttr]
  | cons c l ih =>
      have hcl : c ∉ l ∧ l.Nodup := List.nodup_cons.1 hl
      have hac : a ≠ c := fun h => ha (h ▸ List.mem_cons_self c l)
      have ha' : a ∉ l := fun h => ha (List.mem_cons_of_mem _ h)
      by_cases h : attrLe a c
      · have he : insertAttr a (c :: l) = a :: c :: l := by simp [insertAttr, h]
        rw [he, List.nodup_cons]
        exact ⟨ha, hl⟩
      · have he : insertAttr a (c :: l) = c :: insertAttr a l := by simp [insertAttr, h]
        rw [he, List.nodup_cons]
        refine ⟨fun hc => ?_, ih ha' hcl.2⟩
        rcases mem_insertAttr.1 hc with h1 | h1
        · exact hac h1.symm
        · exact hcl.1 h1

theorem mem_foldr_insertAttr {a : Attr} (m : Multiset Attr) :
    a ∈ Multiset.foldr insertAttr [] m ↔ a ∈ m := by
  induction m using Multiset.induction_on with
  | empty => simp
  | cons b m ih => rw [Multiset.foldr_cons, mem_insertAttr]; simp [ih]

theorem mem_sortedList {a : Attr} {s : Finset Attr} : a ∈ sortedList s ↔ a ∈ s :=
  mem_foldr_insertAttr s.val

theorem nodup_foldr_insertAttr (m : Multiset Attr) (hm : m.Nodup) :
    (Multiset.foldr insertAttr [] m).Nodup := by
  induction m using Multiset.induction_on with
  | empty => simp
  | cons b m ih =>
      rw [Multiset.foldr_cons]
      rw [Multiset.nodup_cons] at hm
      exact nodup_insertAttr (fun h => hm.1 ((mem_foldr_insertAttr m).1 h)) (ih hm.2)

theorem nodup_sortedList (s : Finset Attr) : (sortedList s).Nodup :=
  nodup_foldr_insertAttr s.val s.nodup

theorem sortedList_empty : sortedList ∅ = [] := rfl

theorem sortedList_singleton (a : Attr) : sortedList {a} = [a] := by
  show Multiset.foldr insertAttr [] ({a} : Finset Attr).val = [a]
  rw [Finset.singleton_val, show ({a} : Multiset Attr) = a ::ₘ 0 from rfl,
    Multiset.foldr_cons, Multiset.foldr_zero]
  rfl

/-! ## Lemmas: the closure fixed point -/

theorem closureStep_subset (acc : Finset Attr) (fd : FD) : acc ⊆ closureStep acc fd := by
  unfold closureStep
  split
  · exact Finset.subset_union_left
  · exact Finset.Subset.refl acc

theorem closurePass_subset (fds : List FD) (S : Finset Attr) : S ⊆ closurePass fds S := by
  induction fds generalizing S with
  | nil => exact Finset.Subset.refl S
  | cons fd rest ih =>
      exact (closureStep_subset S fd).trans (ih (closureStep S fd))

theorem closurePass_subset_union (fds : List FD) (S : Finset Attr) :
    closurePass fds S ⊆ S ∪ allRhs fds := by
  induction fds generalizing S with
  | nil => exact Finset.subset_union_left
  | cons fd rest ih =>
      refine (ih (closureStep S fd)).trans ?_
      have h1 : closureStep S fd ⊆ S ∪ fd.rhs := by
        unfold closureStep
        split
        · exact Finset.Subset.refl _
        · exact Finset.subset_union_left
      intro a ha
      rcases Finset.mem_union.1 ha with h | h
      · rcases Finset.mem_union.1 (h1 h) with h' | h'
        · exact Finset.mem_union_left _ h'
        · refine Finset.mem_union_right _ ?_
          show a ∈ allRhs (fd :: rest)
          unfold allRhs
          exact Finset.mem_union_left _ h'
      · refine Finset.mem_union_right _ ?_
        show a ∈ allRhs (fd :: rest)
        unfold allRhs
        exact Finset.mem_union_right _ h

theorem closureAux_subset (n : Nat) (fds : List FD) (S : Finset Attr) :
    S ⊆ closureAux n fds S := by
  induction n generalizing S with
  | zero => exact Finset.Subset.refl S
  | succ n ih =>
      unfold closureAux
      dsimp only
      split
      · exact Finset.Subset.refl S
      · exact (closurePass_subset fds S).trans (ih (closurePass fds S))

/-- With fuel exceeding the number of attributes still missing from
`allRhs`, `closureAux` reaches a fixed point of `closurePass`. -/
theorem closureAux_fixpoint (fds : List FD) :
    ∀ n S, (allRhs fds \ S).card < n →
      closurePass fds (closureAux n fds S) = closureAux n fds S := by
  intro n
  induction n with
  | zero => intro S h; omega
  | succ n ih =>
      intro S h
      unfold closureAux
      dsimp only
      split
      · assumption
      · rename_i hne
        apply ih
        -- the pass strictly grew `S`, eating into `allRhs \ S`
        have hsub : S ⊆ closurePass fds S := closurePass_subset fds S
        have hssub : S ⊂ closurePass fds S :=
          Finset.ssubset_iff_subset_ne.2 ⟨hsub, fun he => hne he.symm⟩
        obtain ⟨x, hxP, hxS⟩ := Finset.exists_of_ssubset hssub
        have hxR : x ∈ allRhs fds := by
          rcases Finset.mem_union.1 (closurePass_subset_union fds S hxP) with h' | h'
          · exact absurd h' hxS
          · exact h'
        have hmono : allRhs fds \ closurePass fds S ⊆ allRhs fds \ S :=
          Finset.sdiff_subset_sdiff (Finset.Subset.refl _) hsub
        have hx2 : x ∈ allRhs fds \ S := Finset.mem_sdiff.2 ⟨hxR, hxS⟩
        have hx3 : x ∉ allRhs fds \ closurePass fds S := by
          simp only [Finset.mem_sdiff, not_and, not_not]
          intro _; exact hxP
        have hlt : (allRhs fds \ closurePass fds S).card < (allRhs fds \ S).card :=
          Finset.card_lt_card (Finset.ssubset_iff_of_subset hmono |>.2 ⟨x, hx2, hx3⟩)
        omega

theorem closure_pass_fixed (F : FDSet) (X : Finset Attr) :
    closurePass F.fds (F.closure X) = F.closure X := by
  apply closureAux_fixpoint
  have : (allRhs F.fds \ X).card ≤ (allRhs F.fds).card :=
    Finset.card_le_card Finset.sdiff_subset
  omega

/-- Reflexivity: the starting attributes survive into the closure. -/
theorem subset_closure (F : FDSet) (X : Finset Attr) : X ⊆ F.closure X :=
  closureAux_subset _ F.fds X

/-- If a full pass leaves `S` unchanged, then `S` is closed under every FD
of the list. -/
theorem closed_of_pass_eq {fds : List FD} {S : Finset Attr}
    (h : closurePass fds S = S) :
    ∀ fd ∈ fds, fd.lhs ⊆ S → fd.rhs ⊆ S := by
  induction fds with
  | nil => intro fd hfd; cases hfd
  | cons fd0 rest ih =>
      intro fd hfd hlhs
      have hstep : closureStep S fd0 = S := by
        by_contra hne
        have h1 : S ⊆ closureStep S fd0 := closureStep_subset S fd0
        have h2 : closureStep S fd0 ⊆ closurePass rest (closureStep S fd0) :=
          closurePass_subset rest _
        have h3 : closurePass rest (closureStep S fd0) = S := h
        exact hne (Finset.Subset.antisymm (h2.trans h3.le) h1)
      have hrest : closurePass rest S = S := by
        have he : closurePass (fd0 :: rest) S = closurePass rest (closureStep S fd0) := rfl
        rw [he, hstep] at h
        exact h
      rcases List.mem_cons.1 hfd with heq | hmem
      · subst heq
        by_contra hr
        have he : closureStep S fd = S ∪ fd.rhs := by
          unfold closureStep
          rw [if_pos ⟨hlhs, hr⟩]
        rw [he] at hstep
        exact hr (hstep ▸ Finset.subset_union_right)
      · exact ih hrest fd hmem hlhs

/-- The closure is closed under every FD of the set: the heart of the
fixed-point iteration. -/
theorem closure_closed (F : FDSet) (X : Finset Attr) :
    ∀ fd ∈ F.fds, fd.lhs ⊆ F.closure X → fd.rhs ⊆ F.closure X :=
  closed_of_pass_eq (closure_pass_fixed F X)

theorem closurePass_subset_closed {fds : List FD} {T : Finset Attr}
    (hT : ∀ fd ∈ fds, fd.lhs ⊆ T → fd.rhs ⊆ T) {S : Finset Attr} (hS : S ⊆ T) :
    closurePass fds S ⊆ T := by
  induction fds generalizing S with
  | nil => exact hS
  | cons fd rest ih =>
      have hstep : closureStep S fd ⊆ T := by
        unfold closureStep
        split
        · rename_i hc
          exact Finset.union_subset hS (hT fd (List.mem_cons_self _ _) (hc.1.trans hS))
        · exact hS
      exact ih (fun g hg => hT g (List.mem_cons_of_mem _ hg)) hstep

/-- Minimality: the closure is the least set containing `X` closed under
all the FDs. -/
theorem closure_minimal (F : FDSet) (X : Finset Attr) {T : Finset Attr}
    (hX : X ⊆ T) (hT : ∀ fd ∈ F.fds, fd.lhs ⊆ T → fd.rhs ⊆ T) :
    F.closure X ⊆ T := by
  unfold FDSet.closure
  generalize (allRhs F.fds).card + 1 = n
  induction n generalizing X with
  | zero => exact hX
  | succ n ih =>
      unfold closureAux
      dsimp only
      split
      · exact hX
      · exact ih (closurePass F.fds X) (closurePass_subset_closed hT hX)

/-- Monotonicity in the starting set. -/
theorem closure_mono (F : FDSet) {X Y : Finset Attr} (h : X ⊆ Y) :
    F.closure X ⊆ F.closure Y :=
  closure_minimal F X (h.trans (subset_closure F Y)) (closure_closed F Y)

/-- Idempotence. -/
theorem closure_idem (F : FDSet) (X : Finset Attr) :
    F.closure (F.closure X) = F.closure X :=
  Finset.Subset.antisymm
    (closure_minimal F _ (Finset.Subset.refl _) (closure_closed F X))
    (subset_closure F _)

/-! ## Lemmas: implication and semantic equality -/

theorem implies_iff (F : FDSet) (fd : FD) :
    F.implies fd = true ↔ fd.rhs ⊆ F.closure fd.lhs := by
  simp [FDSet.implies]

/-- Every FD in the set is implied by the set. -/
theorem implies_of_mem (F : FDSet) {fd : FD} (h : fd ∈ F.fds) : F.implies fd = true := by
  rw [implies_iff]
  exact closure_closed F fd.lhs fd h (subset_closure F fd.lhs)

/-- Soundness of implication: if `G` implies every FD of `F`, then every
closure under `F` is contained in the closure under `G`. -/
theorem closure_le_of_implies {F G : FDSet} (h : ∀ fd ∈ F.fds, G.implies fd = true)
    (X : Finset Attr) : F.closure X ⊆ G.closure X := by
  refine closure_minimal F X (subset_closure G X) ?_
  intro fd hfd hlhs
  have h1 : fd.rhs ⊆ G.closure fd.lhs := (implies_iff G fd).1 (h fd hfd)
  have h2 : G.closure fd.lhs ⊆ G.closure (G.closure X) := closure_mono G hlhs
  rw [closure_idem] at h2
  exact h1.trans h2

/-- Closures are monotone in the FD list, by membership. -/
theorem closure_le_of_subset {F G : FDSet} (h : ∀ fd ∈ F.fds, fd ∈ G.fds)
    (X : Finset Attr) : F.closure X ⊆ G.closure X :=
  closure_le_of_implies (fun fd hfd => implies_of_mem G (h fd hfd)) X

theorem eq_iff_equiv (F G : FDSet) : FDSet.eq F G = true ↔ Equiv F G := by
  simp [FDSet.eq, Equiv, List.all_eq_true]

theorem Equiv.refl (F : FDSet) : Equiv F F :=
  ⟨fun _ h => implies_of_mem F h, fun _ h => implies_of_mem F h⟩

theorem Equiv.symm {F G : FDSet} (h : Equiv F G) : Equiv G F := ⟨h.2, h.1⟩

theorem Equiv.closure_eq {F G : FDSet} (h : Equiv F G) (X : Finset Attr) :
    F.closure X = G.closure X :=
  Finset.Subset.antisymm (closure_le_of_implies h.1 X) (closure_le_of_implies h.2 X)

theorem Equiv.trans {F G H : FDSet} (h1 : Equiv F G) (h2 : Equiv G H) : Equiv F H := by
  constructor
  · intro fd hfd
    rw [implies_iff, ← h2.closure_eq]
    exact (implies_iff G fd).1 (h1.1 fd hfd)
  · intro fd hfd
    rw [implies_iff, h1.closure_eq]
    exact (implies_iff G fd).1 (h2.2 fd hfd)

/-- Two FDSets whose lists have the same members are equivalent. -/
theorem equiv_of_mem_iff {F G : FDSet} (h : ∀ fd, fd ∈ F.fds ↔ fd ∈ G.fds) :
    Equiv F G :=
  ⟨fun fd hfd => implies_of_mem G ((h fd).1 hfd),
   fun fd hfd => implies_of_mem F ((h fd).2 hfd)⟩

/-! ## C4: reflexivity and idempotence of closure -/

/-- C4: for every DependencySet `F` and attribute set `X`, `X` is a subset
of `closure_F(X)`, and `closure_F(closure_F(X)) = closure_F(X)`
(reflexivity and idempotence of the closure fixed-point iteration). -/
theorem c4_closure_reflexive_idempotent (F : FDSet) (X : Finset Attr) :
    X ⊆ F.closure X ∧ F.closure (F.closure X) = F.closure X :=
  ⟨subset_closure F X, closure_idem F X⟩

/-! ## C8: closure is total on FDs with empty left sides -/

/-- C8: closure is total on FDs with empty left sides.  The embedding of
`FDSet.closure` is a total Lean function, so no error is possible; and for
every `F` containing an FD `(∅, R)` and every `X`, the empty-lhs condition
`lhs ⊆ result` holds trivially, so `R` is unconditionally folded in:
`R ⊆ closure_F(X)`. -/
theorem c8_empty_lhs_closure_total (F : FDSet) (R X : Finset Attr)
    (h : FD.mk ∅ R ∈ F.fds) : R ⊆ F.closure X :=
  closure_closed F X (FD.mk ∅ R) h (Finset.empty_subset _)

/-- Witness for C8 at `F = {∅ -> {B}}` and `X = ∅`. -/
theorem c8_empty_lhs_closure_total_witness :
    FD.mk ∅ {"B"} ∈ (FDSet.mk [FD.mk ∅ {"B"}]).fds ∧
      ({"B"} : Finset Attr) ⊆ (FDSet.mk [FD.mk ∅ {"B"}]).closure ∅ :=
  ⟨by decide, c8_empty_lhs_closure_total (FDSet.mk [FD.mk ∅ {"B"}]) {"B"} ∅ (by decide)⟩

/-! ## C5: the three-stage normal-form judgment machine -/

/-- C5: `judge_NF` is the stated three-stage short-circuiting machine: if
the 2NF judge yields a non-empty violation list it returns `("1NF", those)`;
otherwise if the 3NF judge yields violations it returns `("2NF", those)`;
otherwise if the BCNF judge yields violations it returns `("3NF", those)`;
otherwise it returns `("BCNF", [])`. -/
theorem c5_judge_NF_stages (R : RelationSchema) :
    (R.judge_2NF R.candidate_keys ≠ [] →
        R.judge_NF = ("1NF", R.judge_2NF R.candidate_keys)) ∧
    (R.judge_2NF R.candidate_keys = [] → R.judge_3NF R.candidate_keys ≠ [] →
        R.judge_NF = ("2NF", R.judge_3NF R.candidate_keys)) ∧
    (R.judge_2NF R.candidate_keys = [] → R.judge_3NF R.candidate_keys = [] →
        R.judge_BCNF R.candidate_keys ≠ [] →
        R.judge_NF = ("3NF", R.judge_BCNF R.candidate_keys)) ∧
    (R.judge_2NF R.candidate_keys = [] → R.judge_3NF R.candidate_keys = [] →
        R.judge_BCNF R.candidate_keys = [] → R.judge_NF = ("BCNF", [])) := by
  refine ⟨fun h2 => ?_, fun h2 h3 => ?_, fun h2 h3 hb => ?_, fun h2 h3 hb => ?_⟩ <;>
    · unfold RelationSchema.judge_NF
      simp_all

/-- Witness for C5, exercising the third stage at scenario B. -/
theorem c5_judge_NF_stages_witness :
    scB.judge_NF = ("3NF", scB.judge_BCNF scB.candidate_keys) :=
  (c5_judge_NF_stages scB).2.2.1 (by decide) (by decide) (by decide)

/-! ## C6: scenario B judgment -/

/-- C6: for the schema with attributes `{A,B,C,D}` and FDs
`{A->B, BC->D, D->A}`, `judge_NF` returns level `"3NF"` together with at
least one violation. -/
theorem c6_scenarioB_judge_NF :
    scB.judge_NF.1 = "3NF" ∧ scB.judge_NF.2 ≠ [] := by
  constructor <;> decide

/-! ## C7: the lossless-decomposition check -/

/-- C7: `is_lossless_decomposition(fragments)` returns `True` iff some
fragment is a superset of some set in `candidate_keys()`. -/
theorem c7_lossless_iff_fragment_superkey (R : RelationSchema)
    (fragments : List (Finset Attr)) :
    R.is_lossless_decomposition fragments = true ↔
      ∃ S ∈ fragments, ∃ K ∈ R.candidate_keys, K ⊆ S := by
  simp [RelationSchema.is_lossless_decomposition, List.any_eq_true]

/-! ## C10: empty-RHS FDs vanish under elementary decomposition -/

theorem sortedList_of_rhs_empty {fd : FD} (h : fd.rhs = ∅) : sortedList fd.rhs = [] := by
  rw [h, sortedList_empty]

theorem singleton_rhs_filter_empty_rhs (l : List FD) :
    (FDSet.mk (l.filter (fun fd => fd.rhs ≠ ∅))).singleton_rhs =
      (FDSet.mk l).singleton_rhs := by
  unfold FDSet.singleton_rhs
  congr 1
  induction l with
  | nil => rfl
  | cons fd rest ih =>
      by_cases h : fd.rhs = ∅
      · rw [List.filter_cons, if_neg (by simp [h])]
        rw [List.flatMap_cons, sortedList_of_rhs_empty h]
        simpa using ih
      · rw [List.filter_cons, if_pos (by simp [h])]
        rw [List.flatMap_cons, List.flatMap_cons]
        exact congrArg _ ih

/-- C10: an FD whose right side is empty vanishes under elementary
decomposition: `singleton_rhs` of `F` equals `singleton_rhs` of `F` with
all empty-RHS FDs removed; consequently the 2NF, 3NF and BCNF judges,
which consume only the elementary decomposition, are unchanged by the
removal, so such an FD can never appear as a violation. -/
theorem c10_empty_rhs_no_elementary_fd (F : FDSet) :
    (FDSet.mk (F.fds.filter (fun fd => fd.rhs ≠ ∅))).singleton_rhs = F.singleton_rhs ∧
    ∀ (attrs : Finset Attr) (keys : List (Finset Attr)),
      (RelationSchema.mk attrs (FDSet.mk (F.fds.filter (fun fd => fd.rhs ≠ ∅)))).judge_2NF
          keys = (RelationSchema.mk attrs F).judge_2NF keys ∧
      (RelationSchema.mk attrs (FDSet.mk (F.fds.filter (fun fd => fd.rhs ≠ ∅)))).judge_3NF
          keys = (RelationSchema.mk attrs F).judge_3NF keys ∧
      (RelationSchema.mk attrs (FDSet.mk (F.fds.filter (fun fd => fd.rhs ≠ ∅)))).judge_BCNF
          keys = (RelationSchema.mk attrs F).judge_BCNF keys := by
  have hs : (FDSet.mk (F.fds.filter (fun fd => fd.rhs ≠ ∅))).singleton_rhs =
      F.singleton_rhs := by
    have he : F = FDSet.mk F.fds := rfl
    rw [he]
    exact singleton_rhs_filter_empty_rhs F.fds
  refine ⟨hs, fun attrs keys => ⟨?_, ?_, ?_⟩⟩
  · unfold RelationSchema.judge_2NF
    rw [show (RelationSchema.mk attrs (FDSet.mk (F.fds.filter (fun fd => fd.rhs ≠ ∅)))).fd_set
        = FDSet.mk (F.fds.filter (fun fd => fd.rhs ≠ ∅)) from rfl]
    rw [hs]
  · unfold RelationSchema.judge_3NF
    rw [show (RelationSchema.mk attrs (FDSet.mk (F.fds.filter (fun fd => fd.rhs ≠ ∅)))).fd_set
        = FDSet.mk (F.fds.filter (fun fd => fd.rhs ≠ ∅)) from rfl]
    rw [hs]
  · unfold RelationSchema.judge_BCNF
    rw [show (RelationSchema.mk attrs (FDSet.mk (F.fds.filter (fun fd => fd.rhs ≠ ∅)))).fd_set
        = FDSet.mk (F.fds.filter (fun fd => fd.rhs ≠ ∅)) from rfl]
    rw [hs]

/-! ## C9: the shared mutable default argument of `FDSet.__init__` -/

/-- C9 fails on the code: `FDSet.__init__` declares `fds: list[FD] = []`
and stores `self.fds = fds`, so every `FDSet()` binds its `fds` attribute
to the one default list object allocated at function-definition time.
Building two `FDSet()`s and appending an FD through the first makes the
FD visible through the second — the two never own independent lists,
contradicting the claimed fresh allocation (which the specification's
design note explicitly requires). -/
theorem c9_default_list_is_shared :
    (FDSet_init_noarg heapAfterClassDef).2 =
        (FDSet_init_noarg (FDSet_init_noarg heapAfterClassDef).1).2 ∧
      heapGet
        (heapAppend (FDSet_init_noarg (FDSet_init_noarg heapAfterClassDef).1).1
          (FDSet_init_noarg heapAfterClassDef).2 (FD.mk {"A"} {"B"}))
        (FDSet_init_noarg (FDSet_init_noarg heapAfterClassDef).1).2 =
        [FD.mk {"A"} {"B"}] := by
  constructor <;> rfl

/-! ## Lemmas: the candidate-key search -/

theorem mem_allRhs {a : Attr} {l : List FD} :
    a ∈ allRhs l ↔ ∃ fd ∈ l, a ∈ fd.rhs := by
  induction l with
  | nil => simp [allRhs]
  | cons g rest ih =>
      show a ∈ g.rhs ∪ allRhs rest ↔ _
      rw [Finset.mem_union, ih]
      simp

theorem mem_allLhs {a : Attr} {l : List FD} :
    a ∈ allLhs l ↔ ∃ fd ∈ l, a ∈ fd.lhs := by
  induction l with
  | nil => simp [allLhs]
  | cons g rest ih =>
      show a ∈ g.lhs ∪ allLhs rest ↔ _
      rw [Finset.mem_union, ih]
      simp

/-- The closure can only add attributes that appear on some right-hand
side. -/
theorem closure_subset_union_allRhs (F : FDSet) (X : Finset Attr) :
    F.closure X ⊆ X ∪ allRhs F.fds := by
  refine closure_minimal F X Finset.subset_union_left ?_
  intro fd hfd _ a ha
  exact Finset.mem_union_right _ (mem_allRhs.2 ⟨fd, hfd, ha⟩)

/-- An attribute that occurs in no left-hand side never helps fire an FD:
removing it from the start set loses at most the attribute itself. -/
theorem closure_erase_of_not_in_lhs {F : FDSet} {b : Attr}
    (hb : ∀ fd ∈ F.fds, b ∉ fd.lhs) (S : Finset Attr) :
    F.closure S ⊆ F.closure (S.erase b) ∪ {b} := by
  refine closure_minimal F S ?_ ?_
  · intro a ha
    by_cases hab : a = b
    · exact Finset.mem_union_right _ (Finset.mem_singleton.2 hab)
    · exact Finset.mem_union_left _ (subset_closure F _ (Finset.mem_erase.2 ⟨hab, ha⟩))
  · intro fd hfd hlhs
    have hl : fd.lhs ⊆ F.closure (S.erase b) := by
      intro a ha
      rcases Finset.mem_union.1 (hlhs ha) with h | h
      · exact h
      · exact absurd (Finset.mem_singleton.1 h ▸ ha) (hb fd hfd)
    exact (closure_closed F (S.erase b) fd hfd hl).trans Finset.subset_union_left

/-- Two sublists of a duplicate-free list with the same element set are
equal. -/
theorem sublist_eq_of_toFinset_eq {l : List Attr} (hl : l.Nodup) :
    ∀ {s1 s2 : List Attr}, s1.Sublist l → s2.Sublist l → s1.toFinset = s2.toFinset → s1 = s2 := by
  induction l with
  | nil =>
      intro s1 s2 h1 h2 _
      rw [List.sublist_nil.1 h1, List.sublist_nil.1 h2]
  | cons x l ih =>
      intro s1 s2 h1 h2 hf
      have hxl : x ∉ l := (List.nodup_cons.1 hl).1
      have hln : l.Nodup := (List.nodup_cons.1 hl).2
      have hmem : ∀ a, a ∈ s1 ↔ a ∈ s2 := fun a => by
        simp only [← List.mem_toFinset, hf]
      cases h1 with
      | cons _ h1' =>
          cases h2 with
          | cons _ h2' => exact ih hln h1' h2' hf
          | cons₂ _ h2' =>
              exfalso
              have hx1 : x ∈ s1 := (hmem x).2 (List.mem_cons_self _ _)
              exact hxl (h1'.subset hx1)
      | cons₂ _ h1' =>
          cases h2 with
          | cons _ h2' =>
              exfalso
              have hx2 : x ∈ s2 := (hmem x).1 (List.mem_cons_self _ _)
              exact hxl (h2'.subset hx2)
          | cons₂ _ h2' =>
              congr 1
              refine ih hln h1' h2' (Finset.ext fun a => ?_)
              rw [List.mem_toFinset, List.mem_toFinset]
              by_cases hax : a = x
              · subst hax
                exact iff_of_false (fun ha => hxl (h1'.subset ha))
                  (fun ha => hxl (h2'.subset ha))
              · have hm := hmem a
                rw [List.mem_cons, List.mem_cons] at hm
                constructor
                · intro ha
                  rcases hm.1 (Or.inr ha) with h | h
                  · exact absurd h hax
                  · exact h
                · intro ha
                  rcases hm.2 (Or.inr ha) with h | h
                  · exact absurd h hax
                  · exact h

theorem mem_subsetEnum {both : Finset Attr} {s : List Attr} :
    s ∈ subsetEnum both ↔ s.Sublist (sortedList both) := by
  unfold subsetEnum
  simp only [List.mem_flatMap, List.mem_range]
  constructor
  · rintro ⟨r, _, hs⟩
    exact (List.mem_sublistsLen.1 hs).1
  · intro hs
    exact ⟨s.length, by have := hs.length_le; omega, List.mem_sublistsLen_self hs⟩

theorem nodup_subsetEnum (both : Finset Attr) : (subsetEnum both).Nodup := by
  unfold subsetEnum
  rw [List.nodup_flatMap]
  refine ⟨fun r _ => List.nodup_sublistsLen r (nodup_sortedList both), ?_⟩
  refine (List.nodup_range _).imp ?_
  intro r r' hne s hs hs'
  exact hne ((List.length_of_sublistsLen hs).symm.trans (List.length_of_sublistsLen hs'))

/-- `candidate_keys` with its `let`-bindings expanded. -/
theorem candidate_keys_eq (R : RelationSchema) :
    R.candidate_keys =
      (subsetEnum (allLhs R.fd_set.fds ∩ allRhs R.fd_set.fds)).filterMap (fun subset =>
        if R.fd_set.closure ((allLhs R.fd_set.fds \ allRhs R.fd_set.fds) ∪
              subset.toFinset ∪
              (R.attributes \ (allLhs R.fd_set.fds ∪ allRhs R.fd_set.fds))) =
            R.attributes ∧
            ∀ a ∈ (allLhs R.fd_set.fds \ allRhs R.fd_set.fds) ∪ subset.toFinset ∪
              (R.attributes \ (allLhs R.fd_set.fds ∪ allRhs R.fd_set.fds)),
              R.fd_set.closure (((allLhs R.fd_set.fds \ allRhs R.fd_set.fds) ∪
                subset.toFinset ∪
                (R.attributes \ (allLhs R.fd_set.fds ∪ allRhs R.fd_set.fds))).erase a) ≠
                R.attributes
        then some ((allLhs R.fd_set.fds \ allRhs R.fd_set.fds) ∪ subset.toFinset ∪
          (R.attributes \ (allLhs R.fd_set.fds ∪ allRhs R.fd_set.fds)))
        else none) := rfl

/-! ## C3: soundness of `candidate_keys` -/

/-- C3: every set `K` in the list returned by `candidate_keys()` satisfies
`closure(K) == attributes`, and for every attribute `a ∈ K`,
`closure(K - {a}) != attributes`. -/
theorem c3_candidate_keys_sound (R : RelationSchema) (K : Finset Attr)
    (h : K ∈ R.candidate_keys) :
    R.fd_set.closure K = R.attributes ∧
      ∀ a ∈ K, R.fd_set.closure (K.erase a) ≠ R.attributes := by
  rw [candidate_keys_eq] at h
  rcases List.mem_filterMap.1 h with ⟨s, _, hs⟩
  split at hs
  · rename_i hcond
    rw [Option.some.injEq] at hs
    subst hs
    exact hcond
  · exact absurd hs (by simp)

/-- Witness for C3: the key `{A, C}` of scenario B. -/
theorem c3_candidate_keys_sound_witness :
    scB.fd_set.closure {"A", "C"} = scB.attributes ∧
      ∀ a ∈ ({"A", "C"} : Finset Attr),
        scB.fd_set.closure (({"A", "C"} : Finset Attr).erase a) ≠ scB.attributes :=
  c3_candidate_keys_sound scB {"A", "C"} (by decide)

/-! ## C2: completeness and duplicate-freeness of `candidate_keys` -/

theorem filterMap_if_map {α β : Type} (g : α → β) (p : α → Prop)
    [DecidablePred p] (l : List α) :
    l.filterMap (fun s => if p s then some (g s) else none) =
      (l.filter (fun s => p s)).map g := by
  induction l with
  | nil => rfl
  | cons s rest ih =>
      by_cases h : p s <;> simp [List.filterMap_cons, List.filter_cons, h, ih]

/-- C2: `candidate_keys()` is complete and duplicate-free.  For every
schema whose FDs mention only attributes of the universe, every subset
`K` of the universe with `closure(K) = attributes` and no redundant
single attribute occurs in the returned list (so pruning the enumeration
to the attributes on both an FD left side and an FD right side loses no
candidate key), and no two entries of the returned list are equal as
sets. -/
theorem c2_candidate_keys_complete_and_distinct (R : RelationSchema)
    (hU : ∀ fd ∈ R.fd_set.fds, fd.lhs ⊆ R.attributes ∧ fd.rhs ⊆ R.attributes) :
    (∀ K : Finset Attr, K ⊆ R.attributes →
        R.fd_set.closure K = R.attributes →
        (∀ a ∈ K, R.fd_set.closure (K.erase a) ≠ R.attributes) →
        K ∈ R.candidate_keys) ∧
      R.candidate_keys.Pairwise (· ≠ ·) := by
  have haLU : allLhs R.fd_set.fds ⊆ R.attributes := by
    intro a ha
    obtain ⟨fd, hfd, hafd⟩ := mem_allLhs.1 ha
    exact (hU fd hfd).1 hafd
  have haRU : allRhs R.fd_set.fds ⊆ R.attributes := by
    intro a ha
    obtain ⟨fd, hfd, hafd⟩ := mem_allRhs.1 ha
    exact (hU fd hfd).2 hafd
  constructor
  · -- completeness
    intro K hKU hcl hmin
    -- an attribute of the universe on no right-hand side must be in K
    have hnotR : ∀ a ∈ R.attributes, a ∉ allRhs R.fd_set.fds → a ∈ K := by
      intro a haU haR
      have h1 : a ∈ R.fd_set.closure K := hcl.symm ▸ haU
      rcases Finset.mem_union.1 (closure_subset_union_allRhs R.fd_set K h1) with h | h
      · exact h
      · exact absurd h haR
    -- a member of K on some right-hand side must also be on some left-hand side
    have hnoRonly : ∀ b ∈ K, b ∈ allRhs R.fd_set.fds → b ∈ allLhs R.fd_set.fds := by
      intro b hbK hbR
      by_contra hbL
      apply hmin b hbK
      have hb : ∀ fd ∈ R.fd_set.fds, b ∉ fd.lhs := by
        intro fd hfd hbl
        exact hbL (mem_allLhs.2 ⟨fd, hfd, hbl⟩)
      have hUminus : ∀ a ∈ R.attributes, a ≠ b → a ∈ R.fd_set.closure (K.erase b) := by
        intro a haU hab
        have h1 : a ∈ R.fd_set.closure K := hcl.symm ▸ haU
        rcases Finset.mem_union.1 (closure_erase_of_not_in_lhs hb K h1) with h | h
        · exact h
        · exact absurd (Finset.mem_singleton.1 h) hab
      have hbin : b ∈ R.fd_set.closure (K.erase b) := by
        obtain ⟨fd, hfd, hbr⟩ := mem_allRhs.1 hbR
        have hlsub : fd.lhs ⊆ R.fd_set.closure (K.erase b) := by
          intro a ha
          refine hUminus a ((hU fd hfd).1 ha) fun hab => ?_
          exact hb fd hfd (hab ▸ ha)
        exact closure_closed R.fd_set (K.erase b) fd hfd hlsub hbr
      apply Finset.Subset.antisymm
      · refine (closure_subset_union_allRhs R.fd_set _).trans ?_
        exact Finset.union_subset ((Finset.erase_subset _ _).trans hKU) haRU
      · intro a haU
        by_cases hab : a = b
        · exact hab ▸ hbin
        · exact hUminus a haU hab
    -- the decomposition of K used by the enumeration
    have hleftK : allLhs R.fd_set.fds \ allRhs R.fd_set.fds ⊆ K := by
      intro a ha
      have h1 := Finset.mem_sdiff.1 ha
      exact hnotR a (haLU h1.1) h1.2
    have hisoK : R.attributes \ (allLhs R.fd_set.fds ∪ allRhs R.fd_set.fds) ⊆ K := by
      intro a ha
      have h1 := Finset.mem_sdiff.1 ha
      exact hnotR a h1.1 (fun h => h1.2 (Finset.mem_union_right _ h))
    have hKdecomp :
        (allLhs R.fd_set.fds \ allRhs R.fd_set.fds) ∪
            (K ∩ (allLhs R.fd_set.fds ∩ allRhs R.fd_set.fds)) ∪
            (R.attributes \ (allLhs R.fd_set.fds ∪ allRhs R.fd_set.fds)) = K := by
      apply Finset.Subset.antisymm
      · exact Finset.union_subset
          (Finset.union_subset hleftK Finset.inter_subset_left) hisoK
      · intro a haK
        by_cases haR : a ∈ allRhs R.fd_set.fds
        · have haL : a ∈ allLhs R.fd_set.fds := hnoRonly a haK haR
          exact Finset.mem_union_left _ (Finset.mem_union_right _
            (Finset.mem_inter.2 ⟨haK, Finset.mem_inter.2 ⟨haL, haR⟩⟩))
        · by_cases haL : a ∈ allLhs R.fd_set.fds
          · exact Finset.mem_union_left _ (Finset.mem_union_left _
              (Finset.mem_sdiff.2 ⟨haL, haR⟩))
          · refine Finset.mem_union_right _ (Finset.mem_sdiff.2 ⟨hKU haK, fun h => ?_⟩)
            rcases Finset.mem_union.1 h with h | h
            · exact haL h
            · exact haR h
    -- the sublist of the enumeration that realizes K
    have hssub : ((sortedList (allLhs R.fd_set.fds ∩ allRhs R.fd_set.fds)).filter
          (fun a => a ∈ K)).Sublist
        (sortedList (allLhs R.fd_set.fds ∩ allRhs R.fd_set.fds)) :=
      List.filter_sublist _
    have hsfin : ((sortedList (allLhs R.fd_set.fds ∩ allRhs R.fd_set.fds)).filter
          (fun a => a ∈ K)).toFinset =
        K ∩ (allLhs R.fd_set.fds ∩ allRhs R.fd_set.fds) := by
      ext a
      rw [List.mem_toFinset, List.mem_filter]
      constructor
      · rintro ⟨hs, hk⟩
        exact Finset.mem_inter.2 ⟨of_decide_eq_true hk, mem_sortedList.1 hs⟩
      · intro h
        have h1 := Finset.mem_inter.1 h
        exact ⟨mem_sortedList.2 h1.2, decide_eq_true h1.1⟩
    rw [candidate_keys_eq]
    refine List.mem_filterMap.2
      ⟨(sortedList (allLhs R.fd_set.fds ∩ allRhs R.fd_set.fds)).filter (fun a => a ∈ K),
        mem_subsetEnum.2 hssub, ?_⟩
    rw [hsfin, hKdecomp, if_pos ⟨hcl, hmin⟩]
  · -- duplicate-freeness
    rw [candidate_keys_eq, filterMap_if_map, List.pairwise_map]
    refine List.Pairwise.imp_of_mem ?_
      (List.Nodup.filter _ (nodup_subsetEnum (allLhs R.fd_set.fds ∩ allRhs R.fd_set.fds)))
    intro s1 s2 hs1 hs2 hne
    have hb1 : s1.Sublist (sortedList (allLhs R.fd_set.fds ∩ allRhs R.fd_set.fds)) :=
      mem_subsetEnum.1 (List.mem_of_mem_filter hs1 : _)
    have hb2 : s2.Sublist (sortedList (allLhs R.fd_set.fds ∩ allRhs R.fd_set.fds)) :=
      mem_subsetEnum.1 (List.mem_of_mem_filter hs2 : _)
    have hkey : ∀ s : List Attr,
        s.Sublist (sortedList (allLhs R.fd_set.fds ∩ allRhs R.fd_set.fds)) →
        ((allLhs R.fd_set.fds \ allRhs R.fd_set.fds) ∪ s.toFinset ∪
            (R.attributes \ (allLhs R.fd_set.fds ∪ allRhs R.fd_set.fds))) ∩
          (allLhs R.fd_set.fds ∩ allRhs R.fd_set.fds) = s.toFinset := by
      intro s hs
      have hsb : s.toFinset ⊆ allLhs R.fd_set.fds ∩ allRhs R.fd_set.fds := by
        intro a ha
        exact mem_sortedList.1 (hs.subset (List.mem_toFinset.1 ha))
      ext a
      constructor
      · intro ha
        have h1 := Finset.mem_inter.1 ha
        rcases Finset.mem_union.1 h1.1 with h | h
        · rcases Finset.mem_union.1 h with h' | h'
          · exact absurd (Finset.mem_inter.1 h1.2).2 (Finset.mem_sdiff.1 h').2
          · exact h'
        · exact absurd (Finset.mem_union_left _ (Finset.mem_inter.1 h1.2).1)
            (Finset.mem_sdiff.1 h).2
      · intro ha
        exact Finset.mem_inter.2
          ⟨Finset.mem_union_left _ (Finset.mem_union_right _ ha), hsb ha⟩
    intro heq
    apply hne
    refine sublist_eq_of_toFinset_eq
      (nodup_sortedList (allLhs R.fd_set.fds ∩ allRhs R.fd_set.fds)) hb1 hb2 ?_
    rw [← hkey s1 hb1, ← hkey s2 hb2, heq]

/-- Witness for C2 at scenario B: the key `{A, C}` is found by the
enumeration, and the returned list is duplicate-free. -/
theorem c2_candidate_keys_complete_and_distinct_witness :
    ({"A", "C"} : Finset Attr) ∈ scB.candidate_keys ∧
      scB.candidate_keys.Pairwise (· ≠ ·) :=
  ⟨(c2_candidate_keys_complete_and_distinct scB (by decide)).1 {"A", "C"} (by decide)
      (by decide) (by decide),
    (c2_candidate_keys_complete_and_distinct scB (by decide)).2⟩

/-! ## Lemmas: the canonical cover -/

theorem pyFrozenset_singleton {a : Attr} (h : a.length = 1) : pyFrozenset a = {a} := by
  obtain ⟨c, hc⟩ := List.length_eq_one.1 h
  unfold pyFrozenset
  rw [hc]
  have he : String.mk [c] = a := by rw [← hc]
  simp [he]

theorem pyNext_singleton (a : Attr) : pyNext {a} = a := by
  unfold pyNext
  rw [sortedList_singleton]
  rfl

/-- The left-reduction fold of `canonical_cover` keeps the single RHS
attribute derivable and only shrinks the left side. -/
theorem minimize_fold_invariant (full : List FD) (a : Attr) (its : List Attr) :
    ∀ ml : Finset Attr, a ∈ (FDSet.mk full).closure ml →
      a ∈ (FDSet.mk full).closure
          (its.foldl (fun ml attr =>
            if a ∈ (FDSet.mk full).closure (ml.erase attr) then ml.erase attr else ml) ml) ∧
        (its.foldl (fun ml attr =>
            if a ∈ (FDSet.mk full).closure (ml.erase attr) then ml.erase attr else ml) ml)
          ⊆ ml := by
  induction its with
  | nil => intro ml h; exact ⟨h, Finset.Subset.refl ml⟩
  | cons attr rest ih =>
      intro ml h
      simp only [List.foldl_cons]
      by_cases hc : a ∈ (FDSet.mk full).closure (ml.erase attr)
      · rw [if_pos hc]
        obtain ⟨h1, h2⟩ := ih (ml.erase attr) hc
        exact ⟨h1, h2.trans (Finset.erase_subset _ _)⟩
      · rw [if_neg hc]
        exact ih ml h

theorem minimizeFD_spec {full : List FD} {fd : FD} (hmem : fd ∈ full) {a : Attr}
    (hrhs : fd.rhs = {a}) (ha : a.length = 1) :
    (minimizeFD full fd).rhs = fd.rhs ∧ (minimizeFD full fd).lhs ⊆ fd.lhs ∧
      (FDSet.mk full).implies (minimizeFD full fd) = true := by
  have hnext : pyNext fd.rhs = a := by rw [hrhs, pyNext_singleton]
  have hstart : a ∈ (FDSet.mk full).closure fd.lhs := by
    have h1 : fd.rhs ⊆ (FDSet.mk full).closure fd.lhs :=
      closure_closed _ _ fd hmem (subset_closure _ _)
    exact h1 (hrhs ▸ Finset.mem_singleton_self a)
  have hexp : minimizeFD full fd =
      FD.mk ((sortedList fd.lhs).foldl (fun ml attr =>
          if a ∈ (FDSet.mk full).closure (ml.erase attr) then ml.erase attr else ml) fd.lhs)
        (pyFrozenset a) := by
    simp only [minimizeFD, hnext]
  obtain ⟨hin, hsub⟩ := minimize_fold_invariant full a (sortedList fd.lhs) fd.lhs hstart
  refine ⟨?_, ?_, ?_⟩
  · rw [hexp, hrhs]
    exact pyFrozenset_singleton ha
  · rw [hexp]
    exact hsub
  · rw [hexp, implies_iff]
    show pyFrozenset a ⊆ _
    rw [pyFrozenset_singleton ha]
    exact Finset.singleton_subset_iff.2 hin

theorem singleton_rhs_shape {F : FDSet}
    (hsc : ∀ fd ∈ F.fds, ∀ a ∈ fd.rhs, a.length = 1) :
    ∀ fd' ∈ F.singleton_rhs.fds, ∃ a, fd'.rhs = {a} ∧ a.length = 1 := by
  intro fd' h
  unfold FDSet.singleton_rhs at h
  simp only [List.mem_flatMap, List.mem_map] at h
  obtain ⟨fd, hfd, attr, hattr, rfl⟩ := h
  have ha : attr.length = 1 := hsc fd hfd attr (mem_sortedList.1 hattr)
  exact ⟨attr, by simp [pyFrozenset_singleton ha], ha⟩

/-- Under single-character RHS tokens, the elementary decomposition is
semantically equivalent to its source set. -/
theorem equiv_singleton_rhs {F : FDSet}
    (hsc : ∀ fd ∈ F.fds, ∀ a ∈ fd.rhs, a.length = 1) :
    Equiv F F.singleton_rhs := by
  constructor
  · intro fd hfd
    rw [implies_iff]
    intro a ha
    have hmem : FD.mk fd.lhs (pyFrozenset a) ∈ F.singleton_rhs.fds := by
      unfold FDSet.singleton_rhs
      simp only [List.mem_flatMap, List.mem_map]
      exact ⟨fd, hfd, a, mem_sortedList.2 ha, rfl⟩
    have h1 : pyFrozenset a = {a} := pyFrozenset_singleton (hsc fd hfd a ha)
    have h2 := closure_closed F.singleton_rhs fd.lhs _ hmem (subset_closure _ _)
    rw [show (FD.mk fd.lhs (pyFrozenset a)).rhs = pyFrozenset a from rfl, h1] at h2
    exact h2 (Finset.mem_singleton_self a)
  · intro fd' h
    unfold FDSet.singleton_rhs at h
    simp only [List.mem_flatMap, List.mem_map] at h
    obtain ⟨fd, hfd, attr, hattr, rfl⟩ := h
    rw [implies_iff]
    have ha : attr ∈ fd.rhs := mem_sortedList.1 hattr
    have h1 : pyFrozenset attr = {attr} := pyFrozenset_singleton (hsc fd hfd attr ha)
    show pyFrozenset attr ⊆ F.closure fd.lhs
    rw [h1]
    have h2 : fd.rhs ⊆ F.closure fd.lhs := closure_closed F fd.lhs fd hfd (subset_closure _ _)
    exact Finset.singleton_subset_iff.2 (h2 ha)

/-- Left-reduction against the full elementary set preserves semantic
equivalence. -/
theorem equiv_minimized {F1 : FDSet}
    (hshape : ∀ fd ∈ F1.fds, ∃ a, fd.rhs = {a} ∧ a.length = 1) :
    Equiv F1 (FDSet.mk (F1.fds.map (minimizeFD F1.fds))) := by
  constructor
  · intro fd hfd
    obtain ⟨a, hrhs, ha⟩ := hshape fd hfd
    obtain ⟨hr, hl, _⟩ := minimizeFD_spec hfd hrhs ha
    rw [implies_iff]
    have hmem : minimizeFD F1.fds fd ∈ F1.fds.map (minimizeFD F1.fds) :=
      List.mem_map_of_mem _ hfd
    have h1 : (minimizeFD F1.fds fd).lhs ⊆
        (FDSet.mk (F1.fds.map (minimizeFD F1.fds))).closure fd.lhs :=
      hl.trans (subset_closure _ _)
    have h2 := closure_closed (FDSet.mk (F1.fds.map (minimizeFD F1.fds))) fd.lhs _ hmem h1
    rw [hr] at h2
    exact h2
  · intro fd' h
    rw [show (FDSet.mk (F1.fds.map (minimizeFD F1.fds))).fds
        = F1.fds.map (minimizeFD F1.fds) from rfl, List.mem_map] at h
    obtain ⟨fd, hfd, rfl⟩ := h
    obtain ⟨a, hrhs, ha⟩ := hshape fd hfd
    exact (minimizeFD_spec hfd hrhs ha).2.2

theorem mem_pyDedup_aux {fd : FD} (l : List FD) :
    ∀ acc, fd ∈ l.foldl (fun acc g => if g ∈ acc then acc else acc ++ [g]) acc ↔
      fd ∈ acc ∨ fd ∈ l := by
  induction l with
  | nil => intro acc; simp
  | cons g rest ih =>
      intro acc
      rw [List.foldl_cons, ih]
      by_cases h : g ∈ acc
      · rw [if_pos h]
        constructor
        · rintro (h1 | h1)
          · exact Or.inl h1
          · exact Or.inr (List.mem_cons_of_mem _ h1)
        · rintro (h1 | h1)
          · exact Or.inl h1
          · rcases List.mem_cons.1 h1 with h2 | h2
            · exact Or.inl (h2 ▸ h)
            · exact Or.inr h2
      · rw [if_neg h]
        simp only [List.mem_append, List.mem_singleton, List.mem_cons]
        tauto

theorem mem_pyDedup {fd : FD} {l : List FD} : fd ∈ pyDedup l ↔ fd ∈ l := by
  unfold pyDedup
  rw [mem_pyDedup_aux]
  simp

/-- One redundancy-elimination scan preserves semantic equivalence. -/
theorem rrPass_equiv : ∀ (rest kept : List FD),
    Equiv (FDSet.mk (kept ++ rest)) (FDSet.mk (rrPass kept rest).1) := by
  intro rest
  induction rest with
  | nil =>
      intro kept
      have he : (rrPass kept []).1 = kept := rfl
      rw [he, List.append_nil]
      exact Equiv.refl _
  | cons fd rest ih =>
      intro kept
      by_cases h : (FDSet.mk (kept ++ rest)).implies fd = true
      · have he : (rrPass kept (fd :: rest)).1 = (rrPass kept rest).1 := by
          simp only [rrPass, h, if_true]
        rw [he]
        refine Equiv.trans ?_ (ih kept)
        constructor
        · intro g hg
          rcases List.mem_append.1 hg with h1 | h1
          · exact implies_of_mem _ (List.mem_append.2 (Or.inl h1))
          · rcases List.mem_cons.1 h1 with h2 | h2
            · rw [h2]; exact h
            · exact implies_of_mem _ (List.mem_append.2 (Or.inr h2))
        · intro g hg
          rcases List.mem_append.1 hg with h1 | h1
          · exact implies_of_mem _ (List.mem_append.2 (Or.inl h1))
          · exact implies_of_mem _
              (List.mem_append.2 (Or.inr (List.mem_cons_of_mem _ h1)))
      · have he : (rrPass kept (fd :: rest)).1 = (rrPass (kept ++ [fd]) rest).1 := by
          simp only [rrPass, h, if_false, Bool.false_eq_true]
        rw [he]
        have h1 := ih (kept ++ [fd])
        rw [List.append_assoc] at h1
        exact h1

/-- The redundancy-elimination loop preserves semantic equivalence. -/
theorem rrLoop_equiv : ∀ (n : Nat) (l : List FD),
    Equiv (FDSet.mk l) (FDSet.mk (rrLoop n l)) := by
  intro n
  induction n with
  | zero => intro l; exact Equiv.refl _
  | succ n ih =>
      intro l
      have key : Equiv (FDSet.mk l) (FDSet.mk (rrPass [] l).1) := by
        have h1 := rrPass_equiv l []
        rw [List.nil_append] at h1
        exact h1
      rcases hp : rrPass [] l with ⟨l', b⟩
      cases b
      · have he : rrLoop (n + 1) l = l := by
          rw [rrLoop, hp]
        rw [he]
        exact Equiv.refl _
      · have he : rrLoop (n + 1) l = rrLoop n l' := by
          rw [rrLoop, hp]
        rw [he]
        refine Equiv.trans ?_ (ih l')
        rw [show l' = (rrPass [] l).1 from by rw [hp]]
        exact key

/-- Under single-character RHS tokens, `canonical_cover` is semantically
equivalent to its source set. -/
theorem canonical_cover_equiv {F : FDSet}
    (hsc : ∀ fd ∈ F.fds, ∀ a ∈ fd.rhs, a.length = 1) :
    Equiv F F.canonical_cover := by
  have h1 : Equiv F F.singleton_rhs := equiv_singleton_rhs hsc
  have h2 : Equiv F.singleton_rhs
      (FDSet.mk (F.singleton_rhs.fds.map (minimizeFD F.singleton_rhs.fds))) :=
    equiv_minimized (singleton_rhs_shape hsc)
  have h3 : Equiv (FDSet.mk (F.singleton_rhs.fds.map (minimizeFD F.singleton_rhs.fds)))
      (FDSet.mk (pyDedup (F.singleton_rhs.fds.map (minimizeFD F.singleton_rhs.fds)))) :=
    equiv_of_mem_iff (fun fd => mem_pyDedup.symm)
  have h4 := rrLoop_equiv
    ((pyDedup (F.singleton_rhs.fds.map (minimizeFD F.singleton_rhs.fds))).length + 1)
    (pyDedup (F.singleton_rhs.fds.map (minimizeFD F.singleton_rhs.fds)))
  exact ((h1.trans h2).trans h3).trans h4

/-! ## C1: the canonical cover is semantically equal to its source set -/

/-- C1 fails as stated, at a concrete input: for `F = {X -> AB}` with the
multi-character attribute token `"AB"`, `singleton_rhs` computes
`frozenset("AB") = {"A", "B"}` (Python's `frozenset` of a string is the
set of its characters), the cover retains only `X -> A`, and mutual
implication fails in both directions, so `F.canonical_cover() != F` under
`FDSet.__eq__`.  (CPython's set iteration order would pick either
`"A"` or `"B"` as the surviving character; equality fails either way.) -/
theorem c1_canonical_cover_counterexample :
    FDSet.eq exF exF.canonical_cover = false ∧ ¬ Equiv exF exF.canonical_cover :=
  ⟨by decide, fun h => absurd ((eq_iff_equiv _ _).2 h) (by decide)⟩

/-- C1 (amended): for every DependencySet whose right-hand-side attribute
tokens are single characters — the intended attribute shape, the only one
on which `frozenset(attr)` does not split the token — the canonical cover
is semantically equal to its source set under `FDSet.__eq__`: every FD of
`F` is implied by the cover and every FD of the cover is implied by `F`. -/
theorem c1_canonical_cover_semantically_equal (F : FDSet)
    (hsc : ∀ fd ∈ F.fds, ∀ a ∈ fd.rhs, a.length = 1) :
    FDSet.eq F F.canonical_cover = true :=
  (eq_iff_equiv _ _).2 (canonical_cover_equiv hsc)

/-- Witness for the amended C1 at scenario A (`{A->B, B->C}`). -/
theorem c1_canonical_cover_semantically_equal_witness :
    FDSet.eq scA scA.canonical_cover = true :=
  c1_canonical_cover_semantically_equal scA (by decide)

end RelationTheory
